import Mathlib

/-!
Verification of the macro-expansion core of rpmspec-rs (`src/macros.rs`).

The builtin macro catalog is shallowly embedded: each builtin from the
`__internal_macros!` block becomes a Lean function over an explicit parser
state, output buffer (`List Char`) and argument cursor.  Text buffers are
modelled as `List Char` with `Nat` offsets (the Rust code uses byte offsets
into UTF-8 strings; on ASCII inputs the two coincide, and all concrete
inputs used below are ASCII).  Rust `Result<(), ParserError>` together with
the possibility of a panic (`todo!()`, `Option::unwrap` on `None`) is
modelled by the three-outcome type `BRes`.

`Consumer` (from `util.rs`), `SpecParser::define_macro` (from `parse.rs`)
and the `ParserError` enum (from `error.rs`) are not part of the provided
source; they are modelled from the specification where noted.
-/

namespace Rpmspec

/-- Rust `char::is_whitespace`: the Unicode `White_Space` property. -/
def rustIsWhitespace (c : Char) : Bool :=
  let n := c.toNat
  n == 9 || n == 10 || n == 11 || n == 12 || n == 13 || n == 32 ||
  n == 0x85 || n == 0xA0 || n == 0x1680 || (0x2000 ≤ n && n ≤ 0x200A) ||
  n == 0x2028 || n == 0x2029 || n == 0x202F || n == 0x205F || n == 0x3000

/-- Modelled from the spec: the `ParserError` enum of `error.rs` is not in
the provided source; §7 of the spec lists its kinds.  Errors that the code
builds with `eyre!` are mapped to the matching kind. -/
inductive PE where
  | MacroNotFound (name : List Char)
  | MalformedDirective
  | UnboundedRange
  | NonTextEnvironmentValue
  | IoFailure
  | Unimplemented
  deriving DecidableEq, Repr

/-- Outcome of running a builtin: `ok` (Rust `Ok(())`, carrying the updated
state), `err` (Rust `Err(PE)`), or `abort` (a Rust panic, e.g. `todo!()` or
`Option::unwrap` on `None`, which never returns to the caller). -/
inductive BRes (α : Type) where
  | ok (a : α)
  | err (e : PE)
  | abort
  deriving DecidableEq, Repr

/-- `MacroType` from `macros.rs`: a builtin catalog function (identified
here by its name tag) or a runtime definition holding a span into a shared
backing buffer. -/
inductive MacroType where
  | Internal (tag : List Char)
  | Runtime (file : List Char) (offset : Nat) (len : Nat) (s : List Char) (param : Bool)
  deriving DecidableEq, Repr

/-- The macro registry: `HashMap<String, Vec<MacroType>>`, modelled as an
association list with distinct keys; the `Vec` stack is most-recent last. -/
structure SpecParser where
  macros : List (List Char × List MacroType)
  deriving DecidableEq, Repr

/-- `HashMap::get`. -/
def lookupA (m : List (List Char × List MacroType)) (k : List Char) : Option (List MacroType) :=
  match m with
  | [] => none
  | (k', vs) :: rest => if k' = k then some vs else lookupA rest k

/-- `HashMap::remove`: deletes the whole entry (the entire definition stack). -/
def removeA (m : List (List Char × List MacroType)) (k : List Char) : List (List Char × List MacroType) :=
  match m with
  | [] => []
  | (k', vs) :: rest => if k' = k then removeA rest k else (k', vs) :: removeA rest k

/-- Modelled from the spec: defining a name pushes onto its stack
(most-recent last), or creates a new single-element stack if unseen
(§3 MacroRegistry / §4.2 `define`). -/
def pushDef (m : List (List Char × List MacroType)) (k : List Char) (v : MacroType) : List (List Char × List MacroType) :=
  match m with
  | [] => [(k, [v])]
  | (k', vs) :: rest => if k' = k then (k', vs ++ [v]) :: rest else (k', vs) :: pushDef rest k v

/-- One builtin-table entry: `ret.insert(stringify!($m).into(), vec![MacroType::Internal($m)])`. -/
def bi (s : String) : List Char × List MacroType :=
  (s.toList, [MacroType.Internal s.toList])

/-- `INTERNAL_MACROS`: the process-wide builtin table, one entry per
`macro` item of the `__internal_macros!` block, in source order.  Note the
registered name `getconfidir` (sic, as spelled in the source). -/
def INTERNAL_MACROS : List (List Char × List MacroType) :=
  [bi ("define"), bi ("global"), bi ("undefine"), bi ("load"), bi ("expand"),
   bi ("expr"), bi ("lua"), bi ("macrobody"), bi ("quote"), bi ("gsub"),
   bi ("len"), bi ("lower"), bi ("rep"), bi ("reverse"), bi ("sub"),
   bi ("upper"), bi ("shescape"), bi ("shrink"), bi ("basename"),
   bi ("dirname"), bi ("exists"), bi ("suffix"), bi ("url2path"),
   bi ("u2p"), bi ("uncompress"), bi ("getncpus"), bi ("getconfidir"),
   bi ("getenv"), bi ("rpmversion"), bi ("echo"), bi ("warn"), bi ("error"),
   bi ("verbose"), bi ("S"), bi ("P"), bi ("trace"), bi ("dump")]

/-- Modelled from the spec: the `Consumer` text cursor of `util.rs`
(§3/§4.1): a shared buffer with `position`/`end` bounds and a source file
path; range views carry no stream source, and builtins only ever use the
bounded (in-memory) capability. -/
structure Consumer where
  buf : List Char
  pos : Nat
  endPos : Nat
  file : List Char
  deriving DecidableEq, Repr

/-- The characters remaining between `pos` and `endPos`. -/
def remaining (r : Consumer) : List Char :=
  (r.buf.take r.endPos).drop r.pos

/-- Modelled from the spec: `collect` / iteration consumes all remaining
characters from `position` to `end` (§4.1). -/
def collectChars (r : Consumer) : List Char :=
  remaining r

/-- The `while let Some(ch) = r.next() { if !ch.is_whitespace() { r.back(); break } }`
loop of `%define`: advance past leading whitespace. -/
def skipWs (r : Consumer) : Consumer :=
  { r with pos := r.pos + ((remaining r).takeWhile rustIsWhitespace).length }

/-- Modelled from the spec: `read_until_end_of_line` consumes and returns
all characters up to and excluding the next line terminator, or nothing if
already at end (§4.1); the terminator itself is consumed when present. -/
def readTilEol (r : Consumer) : Option (List Char × Consumer) :=
  if r.endPos ≤ r.pos then none
  else
    let rest := remaining r
    let line := rest.takeWhile (fun c => c ≠ '\n')
    some (line, { r with pos := r.pos + min (line.length + 1) rest.length })

/-- Modelled from the spec: `range(start, stop)` produces a bounded view
sharing the buffer, failing (`UnboundedRange`) when the bounds do not fit
the buffer (§4.1). -/
def rangeC (r : Consumer) (a b : Nat) : Option Consumer :=
  if a ≤ b ∧ b ≤ r.buf.length then some { buf := r.buf, pos := a, endPos := b, file := r.file }
  else none

/-- A cursor freshly wrapped around a string's characters. -/
def strCursor (s : List Char) : Consumer :=
  { buf := s, pos := 0, endPos := s.length, file := ("unknown").toList }

/-- Rust `str::trim_start` (drop leading `char::is_whitespace`). -/
def trimStartL (l : List Char) : List Char :=
  l.dropWhile rustIsWhitespace

/-- Rust `str::trim` (drop leading and trailing `char::is_whitespace`). -/
def trimL (l : List Char) : List Char :=
  ((l.dropWhile rustIsWhitespace).reverse.dropWhile rustIsWhitespace).reverse

/-- Rust `str::split_once(' ')`: split at the first space character. -/
def splitOnceSpace (l : List Char) : Option (List Char × List Char) :=
  match l.dropWhile (fun c => c ≠ ' ') with
  | [] => none
  | _ :: after => some (l.takeWhile (fun c => c ≠ ' '), after)

/-- Rust `str::strip_suffix("()")` as used by `%define`: strip a trailing
`()` and report whether it was present (`takes_parameter`). -/
def stripParens (l : List Char) : List Char × Bool :=
  if l.reverse.take 2 = [')', '('] then (l.take (l.length - 2), true) else (l, false)

/-- Modelled from the spec: `SpecParser::define_macro(name, csm, param, len)`
(`parse.rs`, §6) registers a `Runtime` (UserDefined) definition whose span
starts at the passed cursor's position with the given length, sharing the
cursor's backing buffer, pushing onto the name's stack (§4.2). -/
def defineMacroReg (p : SpecParser) (name : List Char) (csm : Consumer) (param : Bool) (len : Nat) : SpecParser :=
  { macros := pushDef p.macros name (MacroType.Runtime csm.file csm.pos len csm.buf param) }

/-- `%define` (`macros.rs` lines 57-76): skip leading whitespace, record
`pos`, read to end of line, `trim_start`, `split_once(' ')` into name and
definition, `trim` the definition, strip a `()` suffix from the name, and
register a span starting at `pos + 1 + name.len()` (the *stripped* name's
length) with the trimmed definition's length. -/
def define (p : SpecParser) (r : Consumer) : BRes SpecParser :=
  let r1 := skipWs r
  let pos := r1.pos
  match readTilEol r1 with
  | none => BRes.err PE.MalformedDirective
  | some (line, r2) =>
    let line' := trimStartL line
    match splitOnceSpace line' with
    | none => BRes.err PE.MalformedDirective
    | some (nameTok, defTok) =>
      let d := trimL defTok
      let (name, param) := stripParens nameTok
      match rangeC r2 (pos + 1 + name.length) r2.pos with
      | none => BRes.err PE.UnboundedRange
      | some csm => BRes.ok (defineMacroReg p name csm param d.length)

/-- `%undefine` (`macros.rs` lines 80-83):
`p.macros.remove(&r.read_til_eol().unwrap())` — the entire stack for the
name is removed; the `unwrap` aborts when `read_til_eol` yields nothing. -/
def undefine (p : SpecParser) (r : Consumer) : BRes SpecParser :=
  match readTilEol r with
  | none => BRes.abort
  | some (name, _) => BRes.ok { macros := removeA p.macros name }

/-- `%macrobody` (`macros.rs` lines 120-137): look up the name's most
recent definition; emit `<builtin>` for a builtin, the raw stored span for
a runtime macro, and fail with `MacroNotFound` when absent. -/
def macrobody (p : SpecParser) (o : List Char) (r : Consumer) : BRes (List Char) :=
  let name := collectChars r
  match (lookupA p.macros name).map List.getLast? with
  | some (some (MacroType.Internal _)) => BRes.ok (o ++ ("<builtin>").toList)
  | some (some (MacroType.Runtime _ offset len s _)) => BRes.ok (o ++ (s.drop offset).take len)
  | _ => BRes.err (PE.MacroNotFound name)

/-- The body loop of `%shescape`: each `'` is emitted as `'` `\` `'`
followed by the character itself. -/
def escBody : List Char → List Char
  | [] => []
  | c :: cs => (if c = '\'' then ['\'', '\\', '\''] else []) ++ c :: escBody cs

/-- `%shescape` (`macros.rs` lines 173-185): wrap the remaining argument in
single quotes, escaping embedded single quotes. -/
def shescape (o : List Char) (r : List Char) : List Char :=
  o ++ '\'' :: (escBody r ++ ['\''])

/-- `%reverse` (`macros.rs` lines 159-164): collect the remaining
characters, reverse them, push onto the output. -/
def reverse (o : List Char) (r : List Char) : List Char :=
  o ++ r.reverse

/-- The second loop of `%shrink`: collapse whitespace runs into single
spaces, with `space` recording whether a run is pending. -/
def shrinkLoop (space : Bool) : List Char → List Char
  | [] => []
  | c :: cs =>
    if rustIsWhitespace c then shrinkLoop true cs
    else (if space then [' ', c] else [c]) ++ shrinkLoop false cs

/-- `%shrink` (`macros.rs` lines 186-206): skip leading whitespace and emit
the first non-whitespace character, then run the collapsing loop. -/
def shrink (o : List Char) (r : List Char) : List Char :=
  match r.dropWhile rustIsWhitespace with
  | [] => o
  | c :: cs => o ++ c :: shrinkLoop false cs

/-- A process-environment variable's value: valid unicode text, or a
non-unicode `OsString` (whose bytes we need not represent). -/
inductive EnvVal where
  | text (v : List Char)
  | nonText
  deriving DecidableEq, Repr

/-- The process environment, passed explicitly (`std::env::var`). -/
def Env : Type := List Char → Option EnvVal

/-- The variable name consulted by `%getconfdir`. -/
def RPM_CONFIGDIR : List Char := ("RPM_CONFIGDIR").toList

/-- The fallback configuration directory. -/
def defaultConfDir : List Char := ("/usr/lib/rpm").toList

/-- `%getconfdir` — spelled `getconfidir` in the source (`macros.rs` lines
257-264): error on a non-unicode `RPM_CONFIGDIR`, else emit its value, or
`/usr/lib/rpm` when unset. -/
def getconfidir (env : Env) (o : List Char) : BRes (List Char) :=
  match env RPM_CONFIGDIR with
  | some EnvVal.nonText => BRes.err PE.NonTextEnvironmentValue
  | some (EnvVal.text v) => BRes.ok (o ++ v)
  | none => BRes.ok (o ++ defaultConfDir)

/-- `%getenv` (`macros.rs` lines 265-273): collect the variable name; emit
its value when set to text, nothing when unset, and fail on a non-unicode
value. -/
def getenv (env : Env) (o : List Char) (r : Consumer) : BRes (List Char) :=
  let name := collectChars r
  match env name with
  | some (EnvVal.text v) => BRes.ok (o ++ v)
  | none => BRes.ok o
  | some EnvVal.nonText => BRes.err PE.NonTextEnvironmentValue

/-- `str::find('\n')` as used by `%dump`: index of the *first* newline. -/
def findNl : List Char → Option Nat
  | [] => none
  | c :: cs => if c = '\n' then some 0 else (findNl cs).map (· + 1)

/-- Decimal digits of a natural number. -/
def natDigits (n : Nat) : List Char :=
  Nat.toDigits 10 n

/-- One `%dump` output line (`macros.rs` lines 315-329) for a name's most
recent definition: `[<internal>]\t%<name>\t<builtin>\n` for a builtin;
for a runtime macro, `nline` is one plus the count of newlines before
`offset` and `col` is `offset - front.find('\n').unwrap_or(0)` — the
index of the *first* newline of the prefix, not the last. -/
def dumpLine (k : List Char) (v : MacroType) : List Char :=
  match v with
  | MacroType.Internal _ =>
    ("[<internal>]\t%").toList ++ k ++ ("\t<builtin>\n").toList
  | MacroType.Runtime file offset len s param =>
    let front := s.take offset
    let nline := (front.filter (fun c => c = '\n')).length + 1
    let col := offset - (findNl front).getD 0
    ['['] ++ file ++ [':'] ++ natDigits nline ++ [':'] ++ natDigits col ++
      (']' :: '\t' :: '%' :: k) ++ (if param then ("\x7b\x7d").toList else []) ++
      '\t' :: (s.drop offset).take len ++ ['\n']

/-- `%dump` (`macros.rs` lines 309-333): one line per registered name's
most recent definition, in registry order. -/
def dump (p : SpecParser) : List (List Char) :=
  p.macros.filterMap (fun kv => (kv.2.getLast?).map (dumpLine kv.1))

/-- The unimplemented placeholder builtins (`macros.rs`): each body is
`todo!()`, which panics. -/
def expr (_p : SpecParser) (_o : List Char) (_r : Consumer) : BRes (List Char) :=
  BRes.abort

/-- `%gsub`: `todo!()`. -/
def gsub (_p : SpecParser) (_o : List Char) (_r : Consumer) : BRes (List Char) :=
  BRes.abort

/-- `%rep`: `todo!()`. -/
def rep (_p : SpecParser) (_o : List Char) (_r : Consumer) : BRes (List Char) :=
  BRes.abort

/-- `%sub`: `todo!()`. -/
def sub (_p : SpecParser) (_o : List Char) (_r : Consumer) : BRes (List Char) :=
  BRes.abort

/-- `%uncompress`: `todo!()`. -/
def uncompress (_p : SpecParser) (_o : List Char) (_r : Consumer) : BRes (List Char) :=
  BRes.abort

/-- `%rpmversion`: `todo!()`. -/
def rpmversion (_p : SpecParser) (_o : List Char) (_r : Consumer) : BRes (List Char) :=
  BRes.abort

/-- `%trace`: `todo!()`. -/
def trace (_p : SpecParser) (_o : List Char) (_r : Consumer) : BRes (List Char) :=
  BRes.abort

/-! Spec-side definitions, written from the claims' words, for comparison
with the embedded code. -/

/-- Negation of the whitespace predicate (a non-whitespace character). -/
def notWs (c : Char) : Bool := !rustIsWhitespace c

/-- Per the claim's words (C7): each single quote is replaced by the
four-character sequence quote, backslash, quote, quote. -/
def escSpecOne (c : Char) : List Char :=
  if c = '\'' then ['\'', '\\', '\'', '\''] else [c]

/-- Per the claim's words (C10): the maximal non-whitespace runs of a text. -/
def splitWs (l : List Char) : List (List Char) :=
  match l with
  | [] => []
  | c :: cs =>
    if rustIsWhitespace c then splitWs cs
    else (c :: cs.takeWhile notWs) :: splitWs (cs.dropWhile notWs)
termination_by l.length
decreasing_by
  all_goals simp_wf
  all_goals first
    | omega
    | exact Nat.lt_succ_of_le (List.Sublist.length_le (List.dropWhile_sublist notWs))

/-- Each word of a tail prefixed with a single joining space. -/
def glue (ws : List (List Char)) : List Char :=
  (ws.map (fun w => ' ' :: w)).flatten

/-- Per the claim's words (C10): runs joined by single spaces. -/
def joinRuns : List (List Char) → List Char
  | [] => []
  | w :: ws => w ++ glue ws

/-- Per the claim's words (C5): the (zero-based) column of `offset` within
the line of the buffer that contains it: the distance from the position
just after the last preceding newline. -/
def columnSpec (s : List Char) (offset : Nat) : Nat :=
  ((s.take offset).reverse.takeWhile (fun c => c ≠ '\n')).length

/-! Helper lemmas. -/

theorem lookupA_removeA (m : List (List Char × List MacroType)) (k : List Char) :
    lookupA (removeA m k) k = none := by
  induction m with
  | nil => rfl
  | cons kv rest ih =>
    obtain ⟨k', vs⟩ := kv
    by_cases h : k' = k
    · simp [removeA, h, ih]
    · simp [removeA, lookupA, h, ih]

theorem removeA_of_lookup_none (m : List (List Char × List MacroType)) (k : List Char)
    (h : lookupA m k = none) : removeA m k = m := by
  induction m with
  | nil => rfl
  | cons kv rest ih =>
    obtain ⟨k', vs⟩ := kv
    by_cases hk : k' = k
    · simp [lookupA, hk] at h
    · simp [lookupA, hk] at h
      simp [removeA, hk, ih h]

theorem collectChars_strCursor (n : List Char) : collectChars (strCursor n) = n := by
  simp [collectChars, remaining, strCursor]

theorem macrobody_not_found (m : List (List Char × List MacroType)) (o n : List Char)
    (h : lookupA m n = none) :
    macrobody ⟨m⟩ o (strCursor n) = BRes.err (PE.MacroNotFound n) := by
  simp [macrobody, collectChars_strCursor, h]

/-- A runtime definition used as a pushed entry by the C1 witness. -/
def dW : MacroType := MacroType.Runtime (("unknown").toList) 0 2 (("hi").toList) false

/-- A concrete environment used by the C6 witness. -/
def envW : Env :=
  fun n => if n = ("HOME").toList then some (EnvVal.text (("/root").toList)) else none

/-- C1: after pushing any number of definitions of a name (over whatever
the registry already holds for it, a builtin included) and invoking
`%undefine` once, the whole stack is gone: lookup of the name misses, and
a subsequent `%macrobody` of that name fails with `MacroNotFound`. -/
theorem undefine_removes_entire_stack (p : SpecParser) (ds : List MacroType)
    (n : List Char) (r r' : Consumer) (o : List Char)
    (h : readTilEol r = some (n, r')) :
    undefine ⟨ds.foldl (fun m d => pushDef m n d) p.macros⟩ r =
      BRes.ok ⟨removeA (ds.foldl (fun m d => pushDef m n d) p.macros) n⟩ ∧
    lookupA (removeA (ds.foldl (fun m d => pushDef m n d) p.macros) n) n = none ∧
    macrobody ⟨removeA (ds.foldl (fun m d => pushDef m n d) p.macros) n⟩ o (strCursor n) =
      BRes.err (PE.MacroNotFound n) := by
  refine ⟨by simp [undefine, h], lookupA_removeA _ n, ?_⟩
  exact macrobody_not_found _ o n (lookupA_removeA _ n)

/-- C1 witness: define `load` twice over the builtin of that name, undefine
once, and `%macrobody load` fails with `MacroNotFound`. -/
theorem undefine_removes_entire_stack_witness :
    macrobody ⟨removeA ([dW, dW].foldl (fun m d => pushDef m (("load").toList) d)
        [bi ("load")]) (("load").toList)⟩ [] (strCursor (("load").toList)) =
      BRes.err (PE.MacroNotFound (("load").toList)) := by
  exact (undefine_removes_entire_stack ⟨[bi ("load")]⟩ [dW, dW] (("load").toList)
    (strCursor (("load").toList)) ⟨("load").toList, 4, 4, ("unknown").toList⟩ [] (by decide)).2.2

/-- C2: evaluating `%define foo() bar` registers a parameterized
definition of length 3 whose span starts at `pos + 1 + name.len()` with
the *stripped* name length, so the buffer substring at the stored span is
`) b`, not the trimmed definition `bar`; `%macrobody foo` then emits
`) b`.  The last two conjuncts show the same misalignment when two spaces
separate name and definition (`%define a  b` stores a span over a space). -/
theorem define_span_bug :
    define ⟨[]⟩ (strCursor (("foo() bar\n").toList)) =
      BRes.ok ⟨[((("foo").toList),
        [MacroType.Runtime (("unknown").toList) 4 3 (("foo() bar\n").toList) true])]⟩ ∧
    (((("foo() bar\n").toList).drop 4).take 3 = (") b").toList ∧
      (") b").toList ≠ ("bar").toList) ∧
    macrobody ⟨[((("foo").toList),
        [MacroType.Runtime (("unknown").toList) 4 3 (("foo() bar\n").toList) true])]⟩ []
        (strCursor (("foo").toList)) = BRes.ok ((") b").toList) ∧
    define ⟨[]⟩ (strCursor (("a  b\n").toList)) =
      BRes.ok ⟨[((("a").toList),
        [MacroType.Runtime (("unknown").toList) 2 1 (("a  b\n").toList) false])]⟩ ∧
    ((("a  b\n").toList).drop 2).take 1 = [' '] := by
  refine ⟨by decide, ⟨by decide, by decide⟩, by decide, by decide, by decide⟩

/-- C3: the builtin table registers the name `getconfidir` (sic), so a
lookup of the claimed name `getconfdir` finds nothing; the function itself
does behave as described: it appends `RPM_CONFIGDIR` when set to text,
appends `/usr/lib/rpm` when unset, and fails on a non-unicode value. -/
theorem getconfdir_misnamed :
    lookupA INTERNAL_MACROS (("getconfdir").toList) = none ∧
    lookupA INTERNAL_MACROS (("getconfidir").toList) =
      some [MacroType.Internal (("getconfidir").toList)] ∧
    (∀ o, getconfidir (fun _ => none) o = BRes.ok (o ++ defaultConfDir)) ∧
    (∀ o v, getconfidir (fun n => if n = RPM_CONFIGDIR then some (EnvVal.text v) else none) o
        = BRes.ok (o ++ v)) ∧
    (∀ o, getconfidir (fun n => if n = RPM_CONFIGDIR then some EnvVal.nonText else none) o
        = BRes.err PE.NonTextEnvironmentValue) := by
  refine ⟨by decide, by decide, fun o => rfl, fun o v => by simp [getconfidir],
    fun o => by simp [getconfidir]⟩

/-- C4 counterexample: `%expr` (a placeholder builtin) is `todo!()`: it
panics, so on a concrete invocation it does not return the structured
`Unimplemented` error to the caller. -/
theorem expr_not_err_unimplemented :
    expr ⟨INTERNAL_MACROS⟩ [] (strCursor []) = BRes.abort ∧
    expr ⟨INTERNAL_MACROS⟩ [] (strCursor []) ≠ BRes.err PE.Unimplemented := by
  exact ⟨rfl, by decide⟩

/-- C4 amended: every placeholder builtin (`expr`, `gsub`, `rep`, `sub`,
`uncompress`, `rpmversion`, `trace`) aborts via the `todo!()` panic on
every invocation — none returns normally, so none silently no-ops, but
none returns a structured error either. -/
theorem placeholders_abort (p : SpecParser) (o : List Char) (r : Consumer) :
    expr p o r = BRes.abort ∧ gsub p o r = BRes.abort ∧ rep p o r = BRes.abort ∧
    sub p o r = BRes.abort ∧ uncompress p o r = BRes.abort ∧
    rpmversion p o r = BRes.abort ∧ trace p o r = BRes.abort :=
  ⟨rfl, rfl, rfl, rfl, rfl, rfl, rfl⟩

/-- C5: the `%dump` line for a definition whose body offset (4) is
preceded by two newlines: the code prints column 3, computed as
`offset - front.find('\n')` from the buffer's *first* newline, while the
body's actual column within the line containing it is 0. -/
theorem dump_column_bug :
    dump ⟨[((("m").toList),
        [MacroType.Runtime (("f").toList) 4 3 (("x\ny\nABC").toList) true])]⟩ =
      [("[f:3:3]\t%m\x7b\x7d\tABC\n").toList] ∧
    columnSpec (("x\ny\nABC").toList) 4 = 0 ∧ (3 : Nat) ≠ 0 := by
  refine ⟨by decide, by decide, by decide⟩

/-- C6: `%getenv` appends the value and succeeds when the variable is set
to text, appends nothing and succeeds when unset, and errs with
`NonTextEnvironmentValue` exactly when the variable is set non-unicode. -/
theorem getenv_cases (env : Env) (o : List Char) (r : Consumer) :
    (∀ v, env (collectChars r) = some (EnvVal.text v) → getenv env o r = BRes.ok (o ++ v)) ∧
    (env (collectChars r) = none → getenv env o r = BRes.ok o) ∧
    (getenv env o r = BRes.err PE.NonTextEnvironmentValue ↔
      env (collectChars r) = some EnvVal.nonText) := by
  refine ⟨fun v hv => by simp [getenv, hv], fun hn => by simp [getenv, hn], ?_⟩
  cases hE : env (collectChars r) with
  | none => simp [getenv, hE]
  | some v => cases v <;> simp [getenv, hE]

/-- C6 witness: a set variable is emitted; an unset one yields empty
output without error. -/
theorem getenv_cases_witness :
    getenv envW [] (strCursor (("HOME").toList)) = BRes.ok (("/root").toList) ∧
    getenv envW [] (strCursor (("GONE").toList)) = BRes.ok [] := by
  constructor
  · exact (getenv_cases envW [] (strCursor (("HOME").toList))).1 (("/root").toList) (by decide)
  · exact (getenv_cases envW [] (strCursor (("GONE").toList))).2.1 (by decide)

/-- C7: `%shescape` emits a quote, the argument with every single quote
replaced by the four-character sequence quote-backslash-quote-quote, and a
closing quote; on `it's` it produces `'it'\''s'`. -/
theorem shescape_escapes (o t : List Char) :
    shescape o t = o ++ '\'' :: ((t.map escSpecOne).flatten ++ ['\'']) ∧
    shescape [] ['i', 't', '\'', 's'] =
      ['\'', 'i', 't', '\'', '\\', '\'', '\'', 's', '\''] := by
  constructor
  · have h : ∀ u : List Char, escBody u = (u.map escSpecOne).flatten := by
      intro u
      induction u with
      | nil => rfl
      | cons c cs ih => by_cases hc : c = '\'' <;> simp [escBody, escSpecOne, hc, ih]
    simp [shescape, h]
  · decide

/-- C8 counterexample: on an already-exhausted argument cursor,
`%undefine`'s `read_til_eol().unwrap()` panics, so the builtin aborts
rather than returning success. -/
theorem undefine_aborts_on_exhausted :
    undefine ⟨INTERNAL_MACROS⟩ (strCursor []) = BRes.abort := rfl

/-- C8 amended: for every argument cursor from which a line can still be
read, `%undefine` returns success (removing the name's entire stack), and
an absent name is a no-op; only an exhausted cursor makes the `unwrap`
abort. -/
theorem undefine_ok_on_readable (p : SpecParser) (r r' : Consumer) (n : List Char)
    (h : readTilEol r = some (n, r')) :
    undefine p r = BRes.ok ⟨removeA p.macros n⟩ ∧
    (lookupA p.macros n = none → undefine p r = BRes.ok p) := by
  constructor
  · simp [undefine, h]
  · intro hn
    simp [undefine, h, removeA_of_lookup_none p.macros n hn]

/-- C8 witness: undefining the absent name `nosuch` over the builtin table
succeeds and leaves the registry unchanged. -/
theorem undefine_ok_on_readable_witness :
    undefine ⟨INTERNAL_MACROS⟩ (strCursor (("nosuch").toList)) = BRes.ok ⟨INTERNAL_MACROS⟩ := by
  exact (undefine_ok_on_readable ⟨INTERNAL_MACROS⟩ (strCursor (("nosuch").toList))
    ⟨("nosuch").toList, 6, 6, ("unknown").toList⟩ (("nosuch").toList) (by decide)).2 (by decide)

/-- C9: `%reverse` reverses its argument by code point, and feeding its
output back through it yields the original text. -/
theorem reverse_involution (t o : List Char) :
    reverse o t = o ++ t.reverse ∧ reverse [] (reverse [] t) = t := by
  refine ⟨rfl, ?_⟩
  simp [reverse]

theorem dropWhile_head_false (p : Char → Bool) (l : List Char) (c : Char) (cs : List Char)
    (h : l.dropWhile p = c :: cs) : p c = false := by
  induction l with
  | nil => simp at h
  | cons a l ih =>
    by_cases ha : p a
    · exact ih (by simpa [List.dropWhile_cons, ha] using h)
    · rw [List.dropWhile_cons, if_neg (by simpa using ha)] at h
      cases h
      simpa using ha

set_option maxHeartbeats 1000000 in
theorem splitWs_nil : splitWs [] = [] := by
  rw [splitWs]

set_option maxHeartbeats 1000000 in
theorem splitWs_cons (c : Char) (cs : List Char) :
    splitWs (c :: cs) = if rustIsWhitespace c then splitWs cs
      else (c :: cs.takeWhile notWs) :: splitWs (cs.dropWhile notWs) := by
  rw [splitWs]

theorem shrink_of_dropWhile_nil (o r : List Char)
    (h : r.dropWhile rustIsWhitespace = []) : shrink o r = o := by
  unfold shrink
  rw [h]

theorem shrink_of_dropWhile_cons (o r : List Char) (c : Char) (cs : List Char)
    (h : r.dropWhile rustIsWhitespace = c :: cs) :
    shrink o r = o ++ c :: shrinkLoop false cs := by
  unfold shrink
  rw [h]

theorem splitWs_dropWhile (l : List Char) :
    splitWs (l.dropWhile rustIsWhitespace) = splitWs l := by
  induction l with
  | nil => rfl
  | cons c cs ih =>
    by_cases hc : rustIsWhitespace c
    · rw [List.dropWhile_cons, if_pos hc, ih, splitWs_cons, if_pos hc]
    · rw [List.dropWhile_cons, if_neg hc]

theorem shrinkLoop_split (cs : List Char) :
    shrinkLoop true cs = glue (splitWs cs) ∧
    shrinkLoop false cs =
      cs.takeWhile notWs ++ glue (splitWs (cs.dropWhile notWs)) := by
  induction cs with
  | nil => simp [shrinkLoop, splitWs_nil, glue]
  | cons c cs ih =>
    by_cases hc : rustIsWhitespace c
    · constructor
      · rw [shrinkLoop, if_pos hc, ih.1, splitWs_cons, if_pos hc]
      · rw [shrinkLoop, if_pos hc, ih.1,
          List.takeWhile_cons, List.dropWhile_cons]
        simp [notWs, hc, splitWs_cons]
    · constructor
      · rw [shrinkLoop, if_neg hc, ih.2, splitWs_cons, if_neg hc]
        simp [glue]
      · rw [shrinkLoop, if_neg hc, ih.2,
          List.takeWhile_cons, List.dropWhile_cons]
        simp [notWs, hc]

theorem shrinkLoop_getLast_notWs (cs : List Char) :
    ∀ space c, (shrinkLoop space cs).getLast? = some c → rustIsWhitespace c = false := by
  induction cs with
  | nil => intro space c h; simp [shrinkLoop] at h
  | cons a cs ih =>
    intro space c h
    by_cases ha : rustIsWhitespace a
    · rw [shrinkLoop, if_pos ha] at h
      exact ih true c h
    · rw [shrinkLoop, if_neg ha] at h
      cases hres : shrinkLoop false cs with
      | nil =>
        rw [hres, List.append_nil] at h
        cases space <;> simp_all
      | cons b bs =>
        rw [hres, List.getLast?_append_of_ne_nil _ (by simp)] at h
        rw [← hres] at h
        exact ih false c h

/-- C10: `%shrink` drops trailing whitespace too: its output is exactly
the input's maximal non-whitespace runs joined by single spaces, so it
never begins or ends with a whitespace character, and a whitespace-only
input produces empty output. -/
theorem shrink_collapses (t : List Char) :
    shrink [] t = joinRuns (splitWs t) ∧
    (∀ c, (shrink [] t).head? = some c → rustIsWhitespace c = false) ∧
    (∀ c, (shrink [] t).getLast? = some c → rustIsWhitespace c = false) ∧
    (t.all rustIsWhitespace = true → shrink [] t = []) := by
  refine ⟨?_, ?_, ?_, ?_⟩
  · cases hd : t.dropWhile rustIsWhitespace with
    | nil =>
      rw [shrink_of_dropWhile_nil [] t hd, ← splitWs_dropWhile, hd, splitWs_nil]
      rfl
    | cons c cs =>
      have hc : rustIsWhitespace c = false := dropWhile_head_false _ t c cs hd
      rw [shrink_of_dropWhile_cons [] t c cs hd, (shrinkLoop_split cs).2,
        ← splitWs_dropWhile t, hd, splitWs_cons, if_neg (by simp [hc]), joinRuns]
      simp
  · intro c h
    cases hd : t.dropWhile rustIsWhitespace with
    | nil => rw [shrink_of_dropWhile_nil [] t hd] at h; simp at h
    | cons c' cs =>
      rw [shrink_of_dropWhile_cons [] t c' cs hd] at h
      simp only [List.nil_append, List.head?_cons, Option.some.injEq] at h
      rw [← h]
      exact dropWhile_head_false _ t c' cs hd
  · intro c h
    cases hd : t.dropWhile rustIsWhitespace with
    | nil => rw [shrink_of_dropWhile_nil [] t hd] at h; simp at h
    | cons c' cs =>
      rw [shrink_of_dropWhile_cons [] t c' cs hd] at h
      cases hres : shrinkLoop false cs with
      | nil =>
        rw [hres] at h
        simp only [List.nil_append, List.getLast?_singleton, Option.some.injEq] at h
        rw [← h]
        exact dropWhile_head_false _ t c' cs hd
      | cons b bs =>
        rw [hres, List.nil_append,
          show c' :: b :: bs = [c'] ++ (b :: bs) from rfl,
          List.getLast?_append_of_ne_nil _ (by simp), ← hres] at h
        exact shrinkLoop_getLast_notWs cs false c h
  · intro h
    exact shrink_of_dropWhile_nil [] t (List.dropWhile_eq_nil_iff.mpr (List.all_eq_true.mp h))

/-- C10 witness: concrete evaluations discharging each hypothesis of the
theorem: whitespace-only input collapses to nothing, and head and last of
a shrunken text are non-whitespace. -/
theorem shrink_collapses_witness :
    shrink [] [' ', '\t', ' '] = [] ∧
    rustIsWhitespace 'a' = false ∧ rustIsWhitespace 'b' = false := by
  refine ⟨(shrink_collapses [' ', '\t', ' ']).2.2.2 (by decide),
    (shrink_collapses [' ', 'a']).2.1 'a' (by decide),
    (shrink_collapses ['a', ' ', 'b', ' ']).2.2.1 'b' (by decide)⟩

end Rpmspec
